import Mathlib

/-!
# Verification of the `llm-sort` semantic line sorter

Shallow embedding of `llm_sort.py`.  Python strings are modelled by Lean
`String`; the Python string primitives `strip`, `lower` and `startswith`
are modelled on the underlying character sequence (`String.data`), which
is exactly the character-level semantics of the Python operations.
Python `float` scores only ever hold multiples of `0.5`, which binary
floats represent exactly, so scores are modelled by `ℚ`.
Python's `sorted` (Timsort) is modelled by the stable `List.mergeSort`.
The LLM oracle is an opaque function from (query, first doc, second doc)
to a raw response string.
-/

namespace LlmSort

/-- A document record, mirroring the dict
`{"id": str(...), "content": line}` (the allpair branch later populates
`"score"`, initialised to `0.0`). -/
structure Doc where
  id : String
  content : String
  score : ℚ := 0
deriving DecidableEq

/-- Python `line.rstrip("\n")`: remove trailing newline characters,
leaving every other character (including other whitespace) intact. -/
def rstripNl (s : String) : String :=
  ⟨(s.data.reverse.dropWhile (fun c => c == '\n')).reverse⟩

/-- The body of the input-reading loop (`llm_sort.py` lines 73–78):
strip the trailing newline, and append non-empty lines with
`id = str(len(documents))`. -/
def buildStep (docs : List Doc) (line : String) : List Doc :=
  let line := rstripNl line
  if line = "" then docs
  else docs ++ [{ id := toString docs.length, content := line }]

/-- The input-reading loop (`llm_sort.py` lines 71–78). -/
def buildDocs (lines : List String) : List Doc :=
  lines.foldl buildStep []

/-- Python `s.strip()`: drop whitespace from both ends of the character
sequence. -/
def strip (s : String) : String :=
  ⟨((s.data.dropWhile Char.isWhitespace).reverse.dropWhile Char.isWhitespace).reverse⟩

/-- Python `s.lower()`: lower-case every character. -/
def lower (s : String) : String :=
  ⟨s.data.map Char.toLower⟩

/-- Python `s.startswith(p)`: prefix test on the character sequence. -/
def startswith (s p : String) : Bool :=
  p.data.isPrefixOf s.data

/-- The comparison oracle: given the query and the two documents (in the
order they are placed into the prompt) it produces a raw response text.
This stands for `model_obj.prompt(prompt_template.format(...)).text()`. -/
def Oracle : Type := String → String → String → String

/-- `pairwise_decision` (`llm_sort.py` lines 99–117): ask the oracle
twice with the document order swapped, strip + lower-case each response,
and reconcile:
`1` iff the first response starts with `"line a"` and the second with
`"line b"`; `-1` in the mirror case; `0` otherwise. -/
def pairwise_decision (oracle : Oracle) (query docA docB : String) : Int :=
  let resp1 := lower (strip (oracle query docA docB))
  let resp2 := lower (strip (oracle query docB docA))
  if startswith resp1 "line a" && startswith resp2 "line b" then 1
  else if startswith resp1 "line b" && startswith resp2 "line a" then -1
  else 0

/-- The list of index pairs visited by the allpair nested loops
`for i in range(n): for j in range(i+1, n)`. -/
def allpairPairs (n : ℕ) : List (ℕ × ℕ) :=
  (List.range n).flatMap fun i =>
    (List.range' (i + 1) (n - (i + 1))).map fun j => (i, j)

/-- One iteration of the allpair inner loop body: compare documents at
positions `p.1` and `p.2` and update their scores
(`+1.0` to the winner, or `+0.5` to each on a tie). -/
def allpairStep (dec : String → String → Int) (ds : List Doc) (p : ℕ × ℕ) : List Doc :=
  match ds[p.1]?, ds[p.2]? with
  | some a, some b =>
    let decision := dec a.content b.content
    if decision = 1 then ds.set p.1 { a with score := a.score + 1 }
    else if decision = -1 then ds.set p.2 { b with score := b.score + 1 }
    else (ds.set p.1 { a with score := a.score + 1/2 }).set p.2 { b with score := b.score + 1/2 }
  | _, _ => ds

/-- `for doc in documents: doc["score"] = 0.0`. -/
def initScores (docs : List Doc) : List Doc :=
  docs.map fun d => { d with score := 0 }

/-- The allpair scoring loop: all pairs `(i, j)` with `i < j < n`, in
program order. -/
def allpairScored (dec : String → String → Int) (docs : List Doc) : List Doc :=
  (allpairPairs docs.length).foldl (allpairStep dec) (initScores docs)

/-- The allpair strategy (`llm_sort.py` lines 121–138): score every pair,
then `sorted(documents, key=lambda d: d["score"], reverse=True)` —
Python's `sorted` is a stable sort, modelled by the stable
`List.insertionSort`; `reverse=True` sorts descending while keeping
equal-key elements in their original relative order. -/
def allpairMethod (dec : String → String → Int) (docs : List Doc) : List Doc :=
  (allpairScored dec docs).insertionSort fun a b => b.score ≤ a.score

/-- `compare_docs` (`llm_sort.py` lines 142–149): three-way comparator
derived from the pairwise decision. -/
def compare_docs (dec : String → String → Int) (a b : Doc) : Int :=
  let decision := dec a.content b.content
  if decision = 1 then -1
  else if decision = -1 then 1
  else 0

/-- The sorting strategy (`llm_sort.py` line 150):
`sorted(documents, key=cmp_to_key(compare_docs))` — Python's stable
`sorted` driven by the three-way comparator, modelled by the stable
`List.insertionSort` with `a ≤ b` iff `compare_docs a b ≤ 0`. -/
def sortingMethod (dec : String → String → Int) (docs : List Doc) : List Doc :=
  docs.insertionSort fun a b => compare_docs dec a b ≤ 0

/-- One iteration of the sliding inner loop
(`llm_sort.py` lines 158–161): compare the documents at positions `i`
and `i + 1` and swap them when the decision is `-1`. -/
def slideStep (dec : String → String → Int) (ds : List Doc) (i : ℕ) : List Doc :=
  match ds[i]?, ds[i + 1]? with
  | some a, some b =>
    if dec a.content b.content = -1 then (ds.set i b).set (i + 1) a else ds
  | _, _ => ds

/-- One sliding pass: `for i in reversed(range(n - 1))`, i.e. a
right-to-left scan over adjacent index pairs. -/
def slidePass (dec : String → String → Int) (ds : List Doc) : List Doc :=
  ((List.range (ds.length - 1)).reverse).foldl (slideStep dec) ds

/-- The number of passes run by `for _ in range(top_k or n)`:
Python's `top_k or n` yields `n` when `top_k == 0` and `top_k` itself
otherwise (including negative values), and `range` of a negative number
is empty. -/
def passCount (top_k : ℤ) (n : ℕ) : ℕ :=
  (if top_k = 0 then (n : ℤ) else top_k).toNat

/-- The sliding strategy (`llm_sort.py` lines 152–161): start from the
input order and run `passCount` passes. -/
def slidingMethod (dec : String → String → Int) (top_k : ℤ) (docs : List Doc) : List Doc :=
  (slidePass dec)^[passCount top_k docs.length] docs

/-- The result selector (`llm_sort.py` lines 166–167):
`if top_k > 0: sorted_docs = sorted_docs[:top_k]`. -/
def truncate (top_k : ℤ) (ds : List Doc) : List Doc :=
  if 0 < top_k then ds.take top_k.toNat else ds

/-- A decision function encoding a strict total order through a numeric
key (smaller key = more relevant, i.e. ordered first): used to state the
"oracle judgments encode a strict total order" hypotheses. -/
def keyDec (key : String → ℕ) (a b : String) : Int :=
  if key a < key b then 1
  else if key b < key a then -1
  else 0

/-- Projection of a document to its identity-relevant fields. -/
def dropScore (d : Doc) : String × String := (d.id, d.content)

/-! ### Concrete oracles used by the witnesses -/

/-- A consistent oracle: prefers the shorter document, wherever it is
placed in the prompt; ties are answered with a position-biased default. -/
def oracleLen : Oracle := fun _ A B =>
  if A.length < B.length then "Line A" else "Line B"

/-- A position-biased oracle that always favors its first argument. -/
def oracleBias : Oracle := fun _ _ _ => "Line A"

/-- An oracle whose answers never parse. -/
def oracleTie : Oracle := fun _ _ _ => "I cannot decide"

/-- Three concrete documents used by witnesses. -/
def docsW : List Doc := [⟨"0", "ccc", 0⟩, ⟨"1", "a", 0⟩, ⟨"2", "bb", 0⟩]

/-- Two concrete documents used by witnesses (out of key order). -/
def docsPair : List Doc := [⟨"0", "bb", 0⟩, ⟨"1", "a", 0⟩]

/-! ### The bias-mitigated comparator (C1) -/

/-- A normalized response cannot simultaneously start with `"line a"`
and `"line b"`. -/
theorem startswith_not_both (s : String) :
    ¬(startswith s "line a" ∧ startswith s "line b") := by
  rintro ⟨h1, h2⟩
  simp only [startswith, List.isPrefixOf_iff_prefix] at h1 h2
  have h3 : ("line a".data) <+: ("line b".data) :=
    List.prefix_of_prefix_length_le h1 h2 (by decide)
  exact absurd (h3.eq_of_length (by decide)) (by decide)

/-- C1: the bias-mitigated comparator returns `1` (First) exactly when
the call on `(A, B)` answers with leading token `"line a"` and the call
on `(B, A)` answers with `"line b"` (after strip + lower-case); `-1`
(Second) under the mirror condition; every other combination of the two
responses — including both calls favoring the same position and any
unparsable leading token — yields `0` (Tie), and no other value is ever
produced. -/
theorem pairwise_decision_spec (oracle : Oracle) (q A B : String) :
    (pairwise_decision oracle q A B = 1 ↔
      (startswith (lower (strip (oracle q A B))) "line a" ∧
       startswith (lower (strip (oracle q B A))) "line b"))
    ∧ (pairwise_decision oracle q A B = -1 ↔
      (startswith (lower (strip (oracle q A B))) "line b" ∧
       startswith (lower (strip (oracle q B A))) "line a"))
    ∧ (pairwise_decision oracle q A B = 1 ∨ pairwise_decision oracle q A B = -1 ∨
       pairwise_decision oracle q A B = 0)
    ∧ (((startswith (lower (strip (oracle q A B))) "line a" ∧
         startswith (lower (strip (oracle q B A))) "line a") ∨
        (startswith (lower (strip (oracle q A B))) "line b" ∧
         startswith (lower (strip (oracle q B A))) "line b")) →
       pairwise_decision oracle q A B = 0) := by
  have ex1 := startswith_not_both (lower (strip (oracle q A B)))
  have ex2 := startswith_not_both (lower (strip (oracle q B A)))
  simp only [pairwise_decision]
  cases h1a : startswith (lower (strip (oracle q A B))) "line a" <;>
    cases h1b : startswith (lower (strip (oracle q A B))) "line b" <;>
    cases h2a : startswith (lower (strip (oracle q B A))) "line a" <;>
    cases h2b : startswith (lower (strip (oracle q B A))) "line b" <;>
    simp_all

/-- Witness for C1: a position-biased oracle that always answers
`"Line A"` degrades to Tie. -/
theorem pairwise_decision_spec_witness :
    pairwise_decision oracleBias "q" "x" "y" = 0 :=
  (pairwise_decision_spec oracleBias "q" "x" "y").2.2.2 (Or.inl (by decide))

/-! ### The result selector (C7) -/

/-- C7: for `top_k > 0` the selector keeps exactly the first
`min(top_k, n)` elements (a prefix of the ranking), and for
`top_k ≤ 0` it keeps everything. -/
theorem truncate_spec (top_k : ℤ) (ds : List Doc) :
    (0 < top_k →
      truncate top_k ds = ds.take top_k.toNat ∧
      (truncate top_k ds).length = min top_k.toNat ds.length ∧
      truncate top_k ds <+: ds)
    ∧ (top_k ≤ 0 → truncate top_k ds = ds) := by
  constructor
  · intro h
    rw [truncate, if_pos h]
    exact ⟨rfl, by simp, List.take_prefix _ _⟩
  · intro h
    rw [truncate, if_neg (by omega)]

/-- Witness for C7 at `top_k = 2` and `top_k = -3` on three documents. -/
theorem truncate_spec_witness :
    (truncate 2 docsW = docsW.take (2 : ℤ).toNat ∧
     (truncate 2 docsW).length = min (2 : ℤ).toNat docsW.length ∧
     truncate 2 docsW <+: docsW)
    ∧ truncate (-3) docsW = docsW :=
  ⟨(truncate_spec 2 docsW).1 (by decide), (truncate_spec (-3) docsW).2 (by decide)⟩

/-! ### The sliding pass count (C2) -/

/-- C2 (amended): the sliding strategy runs `passCount top_k n` passes:
`top_k` of them when `top_k > 0`, `n` when `top_k = 0`, and zero when
`top_k < 0` (Python's `range(top_k or n)` is empty for negative
`top_k`). -/
theorem passCount_spec (dec : String → String → Int) (top_k : ℤ) (docs : List Doc) :
    slidingMethod dec top_k docs = (slidePass dec)^[passCount top_k docs.length] docs
    ∧ (0 < top_k → passCount top_k docs.length = top_k.toNat)
    ∧ (top_k = 0 → passCount top_k docs.length = docs.length)
    ∧ (top_k < 0 → passCount top_k docs.length = 0) := by
  refine ⟨rfl, ?_, ?_, ?_⟩ <;> intro h <;> simp only [passCount] <;> split <;> omega

/-- Witness for C2 (amended) at `top_k ∈ {2, 0, -1}` and `n = 3`. -/
theorem passCount_spec_witness :
    passCount 2 docsW.length = (2 : ℤ).toNat
    ∧ passCount 0 docsW.length = docsW.length
    ∧ passCount (-1) docsW.length = 0 :=
  ⟨(passCount_spec (fun _ _ => 0) 2 docsW).2.1 (by decide),
   (passCount_spec (fun _ _ => 0) 0 docsW).2.2.1 (by decide),
   (passCount_spec (fun _ _ => 0) (-1) docsW).2.2.2 (by decide)⟩

/-- C2 counterexample: with `top_k = -1` over two documents the sliding
strategy runs zero passes and leaves the (unsorted) input unchanged,
while running `n = 2` passes — as the claim demands for `top_k ≤ 0` —
would have sorted it. -/
theorem sliding_negative_topk_counterexample :
    slidingMethod (pairwise_decision oracleLen "q") (-1) docsPair = docsPair ∧
    (slidePass (pairwise_decision oracleLen "q"))^[docsPair.length] docsPair ≠ docsPair := by
  with_unfolding_all decide

/-! ### Input reading (C10) -/

/-- `dropWhile` does nothing on a list whose head is not a newline. -/
theorem dropWhile_nl_eq_self {m : List Char} (h : '\n' ∉ m) :
    m.dropWhile (fun c => c == '\n') = m := by
  cases m with
  | nil => rfl
  | cons c t =>
    rw [List.dropWhile_cons_of_neg]
    simp only [beq_iff_eq]
    exact fun hc => h (hc ▸ List.mem_cons_self c t)

/-- `rstripNl` on a line with no interior newline removes exactly the
final newline character when present and keeps all other characters. -/
theorem rstripNl_spec (l : String) (h : '\n' ∉ l.data.dropLast) :
    (rstripNl l).data =
      if l.data.getLast? = some '\n' then l.data.dropLast else l.data := by
  rcases heq : l.data.getLast? with _ | c
  · have hnil : l.data = [] := List.getLast?_eq_none_iff.mp heq
    simp [rstripNl, hnil]
  · have hd : l.data.dropLast ++ [c] = l.data := List.dropLast_append_getLast? c heq
    have hrev : l.data.reverse = c :: l.data.dropLast.reverse := by
      rw [← hd]; simp
    have hmem : '\n' ∉ l.data.dropLast.reverse := by simpa using h
    by_cases hc : c = '\n'
    · subst hc
      rw [if_pos rfl]
      have h1 : l.data.reverse.dropWhile (fun ch => ch == '\n')
          = l.data.dropLast.reverse := by
        rw [hrev, List.dropWhile_cons_of_pos (by decide)]
        exact dropWhile_nl_eq_self hmem
      show (l.data.reverse.dropWhile (fun ch => ch == '\n')).reverse = l.data.dropLast
      rw [h1, List.reverse_reverse]
    · rw [if_neg (by simp [hc])]
      have h1 : l.data.reverse.dropWhile (fun ch => ch == '\n') = l.data.reverse := by
        rw [hrev, List.dropWhile_cons_of_neg (by simp [hc])]
      show (l.data.reverse.dropWhile (fun ch => ch == '\n')).reverse = l.data
      rw [h1, List.reverse_reverse]

/-- The accumulator-generalized form of the input-reading loop. -/
theorem buildDocs_go (lines : List String) : ∀ acc : List Doc,
    lines.foldl buildStep acc
    = acc ++ (((lines.map rstripNl).filter (fun s => s ≠ "")).enumFrom acc.length).map
        (fun p => { id := toString p.1, content := p.2 }) := by
  induction lines with
  | nil => intro acc; simp
  | cons l ls ih =>
    intro acc
    simp only [List.foldl_cons, List.map_cons]
    by_cases h : rstripNl l = ""
    · rw [List.filter_cons_of_neg (by simpa using h)]
      have hstep : buildStep acc l = acc := by simp [buildStep, h]
      rw [hstep, ih acc]
    · rw [List.filter_cons_of_pos (by simpa using h)]
      have hstep : buildStep acc l
          = acc ++ [{ id := toString acc.length, content := rstripNl l }] := by
        simp [buildStep, h]
      rw [hstep, ih]
      simp [List.enumFrom_cons]

/-- C10: unit construction strips exactly the trailing newline of each
line (any line with no interior newline, as produced by line
iteration), keeps every other character verbatim, drops a line exactly
when it is empty after newline removal (so whitespace-only lines are
retained), and assigns consecutive zero-based decimal-string ids over
the retained lines in encounter order. -/
theorem buildDocs_spec (lines : List String) :
    (∀ l : String, '\n' ∉ l.data.dropLast →
      (rstripNl l).data =
        if l.data.getLast? = some '\n' then l.data.dropLast else l.data)
    ∧ buildDocs lines =
        (((lines.map rstripNl).filter (fun s => s ≠ "")).enum.map
          (fun p => { id := toString p.1, content := p.2 })) :=
  ⟨fun l h => rstripNl_spec l h, by
    rw [buildDocs, buildDocs_go lines []]
    rfl⟩

/-- Witness for C10: a line with interior spaces keeps them; a
whitespace-only line (a space, or a stray carriage return) is retained
as a unit; ids are `"0"`, `"1"`, ... in encounter order. -/
theorem buildDocs_spec_witness :
    ((rstripNl "a b\n").data =
      if ("a b\n".data.getLast? = some '\n') then "a b\n".data.dropLast else "a b\n".data)
    ∧ buildDocs ["a\n", " \n", "\r\n", "", "b"] =
        [⟨"0", "a", 0⟩, ⟨"1", " ", 0⟩, ⟨"2", "\r", 0⟩, ⟨"3", "b", 0⟩] :=
  ⟨(buildDocs_spec ["a\n"]).1 "a b\n" (by decide), by
    rw [(buildDocs_spec ["a\n", " \n", "\r\n", "", "b"]).2]
    decide⟩

/-! ### Generic list helpers -/

/-- Replacing an element of a list by itself does nothing. -/
theorem set_self_eq {α : Type} : ∀ (l : List α) (i : ℕ) (h : i < l.length), l.set i l[i] = l
  | _ :: _, 0, _ => rfl
  | a :: t, i + 1, h => by
    rw [List.set_cons_succ, List.getElem_cons_succ, set_self_eq t i (by simpa using h)]

/-- The sum after replacing the `i`-th element. -/
theorem sum_set_eq : ∀ (l : List ℚ) (i : ℕ) (x : ℚ) (_ : i < l.length),
    (l.set i x).sum = l.sum - l[i] + x
  | a :: t, 0, x, _ => by simp; ring
  | a :: t, i + 1, x, h => by
    rw [List.set_cons_succ]
    simp only [List.sum_cons, List.getElem_cons_succ]
    rw [sum_set_eq t i x (by simpa using h)]
    ring

/-- A fold whose step never changes the state returns the initial state. -/
theorem foldl_const {α β : Type} {f : α → β → α} (hf : ∀ s b, f s b = s) :
    ∀ (l : List β) (s : α), l.foldl f s = s := by
  intro l
  induction l with
  | nil => intro s; rfl
  | cons b t ih => intro s; rw [List.foldl_cons, hf, ih]

/-- Sums of maps over `List.range` agree with `Finset.range` sums. -/
theorem list_range_map_sum (f : ℕ → ℕ) : ∀ n : ℕ,
    ((List.range n).map f).sum = ∑ i ∈ Finset.range n, f i
  | 0 => by simp
  | n + 1 => by
    rw [List.range_succ, Finset.sum_range_succ, List.map_append,
      List.sum_append, list_range_map_sum f n]
    simp

/-! ### The allpair pair schedule (C4) -/

/-- The pairs visited by the allpair nested loops are exactly the
ordered index pairs `i < j < n`. -/
theorem allpairPairs_mem (n : ℕ) (p : ℕ × ℕ) :
    p ∈ allpairPairs n ↔ p.1 < p.2 ∧ p.2 < n := by
  simp only [allpairPairs, List.mem_flatMap, List.mem_map, List.mem_range, List.mem_range']
  constructor
  · rintro ⟨i, hi, j, ⟨k, hk, rfl⟩, rfl⟩
    simp; omega
  · rintro ⟨h1, h2⟩
    exact ⟨p.1, by omega, p.2, ⟨p.2 - p.1 - 1, by omega, by omega⟩, by simp⟩

/-- The allpair schedule evaluates the comparator `n(n-1)/2` times. -/
theorem allpairPairs_length (n : ℕ) : (allpairPairs n).length = n * (n - 1) / 2 := by
  rw [allpairPairs, List.length_flatMap]
  have h1 : List.map (List.length ∘ fun i => (List.range' (i + 1) (n - (i + 1))).map fun j => (i, j))
      (List.range n) = (List.range n).map fun i => n - (i + 1) := by
    simp [Function.comp_def]
  rw [h1, list_range_map_sum]
  have h2 : ∑ i ∈ Finset.range n, (n - (i + 1)) = ∑ i ∈ Finset.range n, i := by
    calc ∑ i ∈ Finset.range n, (n - (i + 1)) = ∑ i ∈ Finset.range n, (n - 1 - i) :=
          Finset.sum_congr rfl fun i _ => by omega
      _ = ∑ i ∈ Finset.range n, i := Finset.sum_range_reflect (fun i => i) n
  rw [h2, Finset.sum_range_id]

/-- No index pair is visited twice by the allpair schedule. -/
theorem allpairPairs_nodup (n : ℕ) : (allpairPairs n).Nodup := by
  rw [allpairPairs, List.nodup_flatMap]
  constructor
  · intro i _
    exact (List.nodup_range' _ _).map fun a b hab => by
      simpa using congrArg Prod.snd hab
  · refine (List.pairwise_lt_range n).imp ?_
    intro i j hij
    intro q hqi hqj
    simp only [List.mem_map] at hqi hqj
    obtain ⟨a, -, rfl⟩ := hqi
    obtain ⟨b, -, hb⟩ := hqj
    exact absurd (congrArg Prod.fst hb).symm (by simpa using hij.ne)

/-! ### Allpair scoring: conservation and identity preservation -/

/-- One allpair update leaves the list length unchanged. -/
theorem allpairStep_length (dec : String → String → Int) (s : List Doc) (p : ℕ × ℕ) :
    (allpairStep dec s p).length = s.length := by
  rw [allpairStep]
  split
  · simp only
    split_ifs <;> simp
  · rfl

/-- One allpair update adds exactly `1` to the total score mass. -/
theorem allpairStep_sum (dec : String → String → Int) (s : List Doc) (p : ℕ × ℕ)
    (h1 : p.1 < s.length) (h2 : p.2 < s.length) (hne : p.1 ≠ p.2) :
    ((allpairStep dec s p).map Doc.score).sum = (s.map Doc.score).sum + 1 := by
  have e1 : s[p.1]? = some s[p.1] := List.getElem?_eq_getElem h1
  have e2 : s[p.2]? = some s[p.2] := List.getElem?_eq_getElem h2
  rw [allpairStep, e1, e2]
  simp only
  have hm1 : p.1 < (s.map Doc.score).length := by simpa using h1
  have hm2 : p.2 < (s.map Doc.score).length := by simpa using h2
  split_ifs
  · rw [List.map_set, sum_set_eq _ _ _ hm1]
    simp; ring
  · rw [List.map_set, sum_set_eq _ _ _ hm2]
    simp; ring
  · rw [List.map_set, List.map_set,
      sum_set_eq _ _ _ (by simpa using hm2), sum_set_eq _ _ _ hm1]
    rw [List.getElem_set_ne hne]
    simp
    ring

/-- Overwriting a list element with one that has the same id and
content leaves the id/content projection unchanged. -/
theorem map_dropScore_set : ∀ (l : List Doc) (i : ℕ) (x y : Doc),
    l[i]? = some x → dropScore y = dropScore x →
    (l.set i y).map dropScore = l.map dropScore
  | [], i, x, y, hx, _ => by simp at hx
  | a :: t, 0, x, y, hx, hxy => by
    simp only [List.getElem?_cons_zero, Option.some.injEq] at hx
    subst hx
    simp [hxy]
  | a :: t, i + 1, x, y, hx, hxy => by
    simp only [List.getElem?_cons_succ] at hx
    simp only [List.set_cons_succ, List.map_cons,
      map_dropScore_set t i x y hx hxy]

/-- One allpair update never changes ids or contents (positionally). -/
theorem allpairStep_dropScore (dec : String → String → Int) (s : List Doc) (p : ℕ × ℕ)
    (hne : p.1 ≠ p.2) :
    (allpairStep dec s p).map dropScore = s.map dropScore := by
  rw [allpairStep]
  split
  case _ a b e1 e2 =>
    simp only
    split_ifs
    · exact map_dropScore_set s p.1 a _ e1 rfl
    · exact map_dropScore_set s p.2 b _ e2 rfl
    · exact (map_dropScore_set (s.set p.1 { a with score := a.score + 1/2 }) p.2 b
          { b with score := b.score + 1/2 }
          (by rw [List.getElem?_set_ne hne]; exact e2) rfl).trans
        (map_dropScore_set s p.1 a { a with score := a.score + 1/2 } e1 rfl)
  · rfl

/-- Folding allpair updates over a valid pair schedule adds the number
of pairs to the total score mass. -/
theorem allpair_fold_sum (dec : String → String → Int) :
    ∀ (P : List (ℕ × ℕ)) (s : List Doc),
      (∀ p ∈ P, p.1 < s.length ∧ p.2 < s.length ∧ p.1 ≠ p.2) →
      ((P.foldl (allpairStep dec) s).map Doc.score).sum
        = (s.map Doc.score).sum + P.length := by
  intro P
  induction P with
  | nil => intro s _; simp
  | cons p P ih =>
    intro s hval
    have hp := hval p (List.mem_cons_self p P)
    rw [List.foldl_cons,
      ih (allpairStep dec s p) (fun q hq => by
        rw [allpairStep_length]; exact hval q (List.mem_cons_of_mem p hq)),
      allpairStep_sum dec s p hp.1 hp.2.1 hp.2.2, List.length_cons]
    push_cast
    ring

/-- Folding allpair updates never changes ids or contents. -/
theorem allpair_fold_dropScore (dec : String → String → Int) :
    ∀ (P : List (ℕ × ℕ)) (s : List Doc), (∀ p ∈ P, p.1 ≠ p.2) →
      (P.foldl (allpairStep dec) s).map dropScore = s.map dropScore := by
  intro P
  induction P with
  | nil => intro s _; rfl
  | cons p P ih =>
    intro s hne
    rw [List.foldl_cons, ih _ (fun q hq => hne q (List.mem_cons_of_mem p hq)),
      allpairStep_dropScore dec s p (hne p (List.mem_cons_self p P))]

/-- C4: the allpair strategy evaluates the comparator exactly once per
unordered pair — `n(n-1)/2` calls, no pair visited twice, every pair
`i < j < n` visited — and for every comparator behavior the total score
mass of the output equals `n(n-1)/2`. -/
theorem allpair_calls_and_score_sum (dec : String → String → Int) (docs : List Doc) :
    (allpairPairs docs.length).length = docs.length * (docs.length - 1) / 2
    ∧ (∀ p : ℕ × ℕ, p ∈ allpairPairs docs.length ↔ p.1 < p.2 ∧ p.2 < docs.length)
    ∧ (allpairPairs docs.length).Nodup
    ∧ ((allpairMethod dec docs).map Doc.score).sum
        = ((docs.length * (docs.length - 1) / 2 : ℕ) : ℚ) := by
  refine ⟨allpairPairs_length _, fun p => allpairPairs_mem _ p, allpairPairs_nodup _, ?_⟩
  have hperm : List.Perm (allpairMethod dec docs) (allpairScored dec docs) :=
    List.perm_insertionSort _ _
  rw [(hperm.map Doc.score).sum_eq, allpairScored,
    allpair_fold_sum dec _ _ (fun p hp => by
      have hmem := (allpairPairs_mem docs.length p).mp hp
      have hlen : (initScores docs).length = docs.length := by simp [initScores]
      rw [hlen]
      omega)]
  have h0 : ((initScores docs).map Doc.score).sum = 0 := by
    simp [initScores, List.map_map, Function.comp_def]
  rw [h0, allpairPairs_length]
  simp

/-! ### The sliding pass: recursive characterization -/

/-- Recursive form of one right-to-left sliding pass: process the tail
first, then compare the head with the (possibly new) second element. -/
def onePassR (dec : String → String → Int) : List Doc → List Doc
  | [] => []
  | [a] => [a]
  | a :: b :: t =>
    match onePassR dec (b :: t) with
    | [] => [a]
    | c :: t' => if dec a.content c.content = -1 then c :: a :: t' else a :: c :: t'

/-- A sliding comparison at a positive index leaves the head alone. -/
theorem slideStep_cons_succ (dec : String → String → Int) (a : Doc) (s : List Doc) (i : ℕ) :
    slideStep dec (a :: s) (i + 1) = a :: slideStep dec s i := by
  simp only [slideStep, List.getElem?_cons_succ]
  cases h1 : s[i]? with
  | none => rfl
  | some x =>
    cases h2 : s[i + 1]? with
    | none => rfl
    | some y =>
      simp only
      split_ifs <;> simp [List.set_cons_succ]

/-- Sliding comparisons at shifted indices act on the tail. -/
theorem foldl_slideStep_map_succ (dec : String → String → Int) (a : Doc) :
    ∀ (is : List ℕ) (s : List Doc),
      (is.map (· + 1)).foldl (slideStep dec) (a :: s) = a :: is.foldl (slideStep dec) s := by
  intro is
  induction is with
  | nil => intro s; rfl
  | cons i is ih =>
    intro s
    rw [List.map_cons, List.foldl_cons, List.foldl_cons, slideStep_cons_succ, ih]

/-- One pass preserves the number of documents. -/
theorem onePassR_length (dec : String → String → Int) :
    ∀ l : List Doc, (onePassR dec l).length = l.length
  | [] => rfl
  | [a] => rfl
  | a :: b :: t => by
    have ih := onePassR_length dec (b :: t)
    rw [onePassR]
    rcases hm : onePassR dec (b :: t) with _ | ⟨c, t'⟩
    · rw [hm] at ih
      simp at ih
    · rw [hm] at ih
      simp only [List.length_cons] at ih ⊢
      split_ifs <;> simp <;> omega

/-- One pass permutes the documents. -/
theorem onePassR_perm (dec : String → String → Int) :
    ∀ l : List Doc, List.Perm (onePassR dec l) l
  | [] => List.Perm.refl _
  | [a] => List.Perm.refl _
  | a :: b :: t => by
    have ih := onePassR_perm dec (b :: t)
    rw [onePassR]
    rcases hm : onePassR dec (b :: t) with _ | ⟨c, t'⟩
    · rw [hm] at ih
      have := ih.length_eq
      simp at this
    · rw [hm] at ih
      dsimp only
      split_ifs
      · exact (List.Perm.swap a c t').trans (ih.cons a)
      · exact ih.cons a

/-- The indexed right-to-left fold of the source equals the recursive
pass. -/
theorem slidePass_eq_onePassR (dec : String → String → Int) :
    ∀ ds : List Doc, slidePass dec ds = onePassR dec ds := by
  intro ds
  induction ds with
  | nil => rfl
  | cons a rest ih =>
    cases rest with
    | nil => rfl
    | cons b t =>
      rw [onePassR]
      have hlen : (a :: b :: t).length - 1 = t.length + 1 := by simp
      rw [slidePass, hlen, List.range_succ_eq_map, List.reverse_cons, ← List.map_reverse,
        List.foldl_append]
      have hmap : (List.map Nat.succ (List.range t.length).reverse)
          = (List.range t.length).reverse.map (· + 1) := by
        simp [Nat.succ_eq_add_one]
      rw [hmap, foldl_slideStep_map_succ]
      have htail : (List.range t.length).reverse.foldl (slideStep dec) (b :: t)
          = onePassR dec (b :: t) := by
        have : (b :: t).length - 1 = t.length := by simp
        rw [← ih, slidePass, this]
      rw [List.foldl_cons, List.foldl_nil, htail]
      have hne := onePassR_length dec (b :: t)
      rcases hm : onePassR dec (b :: t) with _ | ⟨c, t'⟩
      · rw [hm] at hne
        simp at hne
      · simp only [slideStep, List.getElem?_cons_zero, List.getElem?_cons_succ]
        split_ifs <;> simp

/-- One sliding pass permutes the documents. -/
theorem slidePass_perm (dec : String → String → Int) (ds : List Doc) :
    List.Perm (slidePass dec ds) ds := by
  rw [slidePass_eq_onePassR]
  exact onePassR_perm dec ds

/-- Any number of sliding passes permutes the documents. -/
theorem slidePass_iterate_perm (dec : String → String → Int) :
    ∀ (k : ℕ) (ds : List Doc), List.Perm ((slidePass dec)^[k] ds) ds
  | 0, ds => List.Perm.refl ds
  | k + 1, ds => by
    rw [Function.iterate_succ_apply]
    exact (slidePass_iterate_perm dec k (slidePass dec ds)).trans (slidePass_perm dec ds)

/-! ### Identity preservation by all strategies (C8) -/

/-- C8: before truncation, each of the three strategies outputs a
permutation of its input units, for every comparator behavior: the
allpair strategy permutes the input units (their ids and contents,
scores being the one field it populates), and the sorting and sliding
strategies permute the input documents unchanged. -/
theorem strategies_preserve_units (dec : String → String → Int) (top_k : ℤ) (docs : List Doc) :
    List.Perm ((allpairMethod dec docs).map dropScore) (docs.map dropScore)
    ∧ List.Perm (sortingMethod dec docs) docs
    ∧ List.Perm (slidingMethod dec top_k docs) docs := by
  refine ⟨?_, List.perm_insertionSort _ docs, slidePass_iterate_perm dec _ docs⟩
  have h1 : List.Perm ((allpairMethod dec docs).map dropScore)
      ((allpairScored dec docs).map dropScore) :=
    (List.perm_insertionSort _ _).map dropScore
  have h2 : (allpairScored dec docs).map dropScore = docs.map dropScore := by
    rw [allpairScored, allpair_fold_dropScore dec _ _ (fun p hp =>
      ((allpairPairs_mem docs.length p).mp hp).1.ne)]
    simp [initScores, dropScore, List.map_map, Function.comp_def]
  rw [← h2]
  exact h1

/-! ### Bubble-sort correctness of the sliding pass under a strict
total order -/

/-- `keyDec` answers First exactly on strictly smaller keys. -/
theorem keyDec_eq_one_iff (key : String → ℕ) (a b : String) :
    keyDec key a b = 1 ↔ key a < key b := by
  rw [keyDec]
  split_ifs with h1 h2
  · simp [h1]
  · constructor
    · intro hx
      exact absurd hx (by decide)
    · intro hx
      omega
  · constructor
    · intro hx
      exact absurd hx (by decide)
    · intro hx
      omega

/-- `keyDec` answers Second exactly on strictly larger keys. -/
theorem keyDec_eq_neg_one_iff (key : String → ℕ) (a b : String) :
    keyDec key a b = -1 ↔ key b < key a := by
  rw [keyDec]
  split_ifs with h1 h2
  · constructor
    · intro hx
      exact absurd hx (by decide)
    · intro hx
      omega
  · simp [h2]
  · constructor
    · intro hx
      exact absurd hx (by decide)
    · intro hx
      omega

/-- Under a key-encoded order, one pass brings a minimal-key document
to the front. -/
theorem onePassR_min_head (dec : String → String → Int) (key : String → ℕ)
    (hswap : ∀ a b, dec a b = -1 ↔ key b < key a) :
    ∀ (a : Doc) (l : List Doc), ∃ c t', onePassR dec (a :: l) = c :: t' ∧
      ∀ x ∈ onePassR dec (a :: l), key c.content ≤ key x.content := by
  intro a l
  induction l generalizing a with
  | nil =>
    refine ⟨a, [], rfl, ?_⟩
    intro x hx
    rw [show onePassR dec [a] = [a] from rfl] at hx
    rw [List.mem_singleton.mp hx]
  | cons b t ih =>
    obtain ⟨c, t', hct, hmin⟩ := ih b
    by_cases hd : dec a.content c.content = -1
    · have hca := (hswap a.content c.content).mp hd
      have hout : onePassR dec (a :: b :: t) = c :: a :: t' := by
        rw [onePassR, hct]
        dsimp only
        rw [if_pos hd]
      refine ⟨c, a :: t', hout, ?_⟩
      intro x hx
      rw [hout] at hx
      rcases List.mem_cons.mp hx with rfl | hx2
      · exact le_refl _
      rcases List.mem_cons.mp hx2 with rfl | hx3
      · exact le_of_lt hca
      · exact hmin x (by rw [hct]; exact List.mem_cons_of_mem c hx3)
    · have hac : key a.content ≤ key c.content := by
        have := (hswap a.content c.content).not.mp hd
        omega
      have hout : onePassR dec (a :: b :: t) = a :: c :: t' := by
        rw [onePassR, hct]
        dsimp only
        rw [if_neg hd]
      refine ⟨a, c :: t', hout, ?_⟩
      intro x hx
      rw [hout] at hx
      rcases List.mem_cons.mp hx with rfl | hx2
      · exact le_refl _
      · exact le_trans hac (hmin x (by rw [hct]; exact hx2))

/-- A pass never displaces a document whose key is minimal. -/
theorem onePassR_cons_of_min (dec : String → String → Int) (key : String → ℕ)
    (hswap : ∀ a b, dec a b = -1 ↔ key b < key a) (a : Doc) (l : List Doc)
    (hmin : ∀ x ∈ l, key a.content ≤ key x.content) :
    onePassR dec (a :: l) = a :: onePassR dec l := by
  cases l with
  | nil => rfl
  | cons b t =>
    obtain ⟨c, t', hct, -⟩ := onePassR_min_head dec key hswap b t
    rw [onePassR, hct]
    dsimp only
    rw [if_neg, ← hct]
    have hc_mem : c ∈ b :: t :=
      (onePassR_perm dec (b :: t)).subset (hct ▸ List.mem_cons_self c t')
    have := hmin c hc_mem
    rw [hswap]
    omega

/-- Iterated passes never displace a document whose key is minimal. -/
theorem onePassR_iterate_cons_of_min (dec : String → String → Int) (key : String → ℕ)
    (hswap : ∀ a b, dec a b = -1 ↔ key b < key a) :
    ∀ (k : ℕ) (a : Doc) (l : List Doc), (∀ x ∈ l, key a.content ≤ key x.content) →
      (onePassR dec)^[k] (a :: l) = a :: (onePassR dec)^[k] l
  | 0, a, l, _ => rfl
  | k + 1, a, l, hmin => by
    rw [Function.iterate_succ_apply, Function.iterate_succ_apply,
      onePassR_cons_of_min dec key hswap a l hmin,
      onePassR_iterate_cons_of_min dec key hswap k a (onePassR dec l)
        (fun x hx => hmin x ((onePassR_perm dec l).subset hx))]

/-- Bubble-sort correctness: `n − 1` passes sort any `n` documents by
key (weakly). -/
theorem onePassR_iterate_sorts (dec : String → String → Int) (key : String → ℕ)
    (hswap : ∀ a b, dec a b = -1 ↔ key b < key a) :
    ∀ (n : ℕ) (l : List Doc), l.length = n →
      ((onePassR dec)^[n - 1] l).Pairwise (fun a b => key a.content ≤ key b.content)
      ∧ List.Perm ((onePassR dec)^[n - 1] l) l := by
  intro n
  induction n using Nat.strong_induction_on with
  | _ n ih =>
    intro l hl
    match l with
    | [] => subst hl; exact ⟨List.Pairwise.nil, List.Perm.refl _⟩
    | [a] => subst hl; exact ⟨List.pairwise_singleton _ a, List.Perm.refl _⟩
    | a :: b :: t =>
      subst hl
      obtain ⟨c, t', hct, hmin⟩ := onePassR_min_head dec key hswap a (b :: t)
      have ht' : t'.length = t.length + 1 := by
        have := onePassR_length dec (a :: b :: t)
        rw [hct] at this
        simpa using this
      have hshape : (a :: b :: t).length - 1 = t.length + 1 := by simp
      rw [hshape, Function.iterate_succ_apply, hct,
        onePassR_iterate_cons_of_min dec key hswap t.length c t'
          (fun x hx => hmin x (by rw [hct]; exact List.mem_cons_of_mem c hx))]
      have iht' := ih (t.length + 1) (by simp) t' ht'
      rw [show t.length + 1 - 1 = t.length from rfl] at iht'
      constructor
      · rw [List.pairwise_cons]
        refine ⟨?_, iht'.1⟩
        intro x hx
        exact hmin x (by
          rw [hct]
          exact List.mem_cons_of_mem c (iht'.2.subset hx))
      · refine (iht'.2.cons c).trans ?_
        rw [← hct]
        exact onePassR_perm dec (a :: b :: t)

/-- C6: if the oracle's judgments encode a strict total order on the
unit contents (via an injective key), then `n − 1` right-to-left
sliding passes (swap on Second, keep on Tie/First) output the units
exactly in that order; for `n ≥ 2` that is the sliding strategy at
`top_k = n − 1`. -/
theorem sliding_full_pass_total_order (oracle : Oracle) (q : String) (key : String → ℕ)
    (docs : List Doc)
    (hdec : ∀ a b, pairwise_decision oracle q a b = keyDec key a b)
    (hkeys : docs.Pairwise (fun a b => key a.content ≠ key b.content)) :
    ((slidePass (pairwise_decision oracle q))^[docs.length - 1] docs).Pairwise
      (fun a b => key a.content < key b.content)
    ∧ List.Perm ((slidePass (pairwise_decision oracle q))^[docs.length - 1] docs) docs
    ∧ (2 ≤ docs.length →
        slidingMethod (pairwise_decision oracle q) ((docs.length : ℤ) - 1) docs
          = (slidePass (pairwise_decision oracle q))^[docs.length - 1] docs) := by
  have hswap : ∀ a b, pairwise_decision oracle q a b = -1 ↔ key b < key a := by
    intro a b
    rw [hdec]
    exact keyDec_eq_neg_one_iff key a b
  have hpass : slidePass (pairwise_decision oracle q) = onePassR (pairwise_decision oracle q) :=
    funext (slidePass_eq_onePassR _)
  rw [hpass]
  obtain ⟨hsort, hperm⟩ :=
    onePassR_iterate_sorts (pairwise_decision oracle q) key hswap docs.length docs rfl
  refine ⟨?_, hperm, ?_⟩
  · have hne : ((onePassR (pairwise_decision oracle q))^[docs.length - 1] docs).Pairwise
        (fun a b => key a.content ≠ key b.content) :=
      (hperm.pairwise_iff fun h => h.symm).mpr hkeys
    exact (hsort.and hne).imp fun h => lt_of_le_of_ne h.1 h.2
  · intro h2
    rw [slidingMethod, hpass]
    have hcount : passCount ((docs.length : ℤ) - 1) docs.length = docs.length - 1 := by
      rw [passCount]
      split <;> omega
    rw [hcount]

/-- The length-comparing oracle realizes `keyDec String.length` through
the bias-mitigated comparator. -/
theorem oracleLen_dec (q : String) : ∀ a b : String,
    pairwise_decision oracleLen q a b = keyDec String.length a b := by
  intro a b
  rcases Nat.lt_trichotomy a.length b.length with h | h | h
  · rw [keyDec, if_pos h]
    simp only [pairwise_decision, oracleLen, if_pos h,
      if_neg (by omega : ¬b.length < a.length)]
    decide
  · rw [keyDec, if_neg (by omega), if_neg (by omega)]
    simp only [pairwise_decision, oracleLen, if_neg (by omega : ¬a.length < b.length),
      if_neg (by omega : ¬b.length < a.length)]
    decide
  · rw [keyDec, if_neg (by omega), if_pos h]
    simp only [pairwise_decision, oracleLen, if_pos h,
      if_neg (by omega : ¬a.length < b.length)]
    decide

/-- Witness for C6: three documents with distinct lengths, sorted by
two sliding passes under the length oracle. -/
theorem sliding_full_pass_total_order_witness :
    ((slidePass (pairwise_decision oracleLen "q"))^[docsW.length - 1] docsW).Pairwise
      (fun a b => String.length a.content < String.length b.content)
    ∧ List.Perm ((slidePass (pairwise_decision oracleLen "q"))^[docsW.length - 1] docsW) docsW
    ∧ (2 ≤ docsW.length →
        slidingMethod (pairwise_decision oracleLen "q") ((docsW.length : ℤ) - 1) docsW
          = (slidePass (pairwise_decision oracleLen "q"))^[docsW.length - 1] docsW) :=
  sliding_full_pass_total_order oracleLen "q" String.length docsW
    (oracleLen_dec "q") (by decide)

/-! ### Comparator-sort correctness under a strict total order (C3) -/

/-- C3: if the oracle's judgments encode a strict total order on the
unit contents, the sorting strategy outputs the units exactly in that
order. -/
theorem sorting_total_order (oracle : Oracle) (q : String) (key : String → ℕ)
    (docs : List Doc)
    (hdec : ∀ a b, pairwise_decision oracle q a b = keyDec key a b)
    (hkeys : docs.Pairwise (fun a b => key a.content ≠ key b.content)) :
    (sortingMethod (pairwise_decision oracle q) docs).Pairwise
      (fun a b => key a.content < key b.content)
    ∧ List.Perm (sortingMethod (pairwise_decision oracle q) docs) docs := by
  rw [sortingMethod]
  set r := fun a b : Doc => compare_docs (pairwise_decision oracle q) a b ≤ 0 with hr
  have hiff : ∀ a b : Doc, r a b ↔ key a.content ≤ key b.content := by
    intro a b
    rw [hr]
    dsimp only
    rw [compare_docs, hdec a.content b.content]
    rcases Nat.lt_trichotomy (key a.content) (key b.content) with h | h | h
    · rw [keyDec, if_pos h]
      norm_num
      omega
    · rw [keyDec, if_neg (by omega), if_neg (by omega)]
      norm_num
      omega
    · rw [keyDec, if_neg (by omega), if_pos h]
      norm_num
      omega
  have hperm := List.perm_insertionSort r docs
  constructor
  · have hsort : (docs.insertionSort r).Pairwise r := by
      haveI : IsTotal Doc r := ⟨fun a b => by rw [hiff, hiff]; omega⟩
      haveI : IsTrans Doc r := ⟨fun a b c hab hbc => by
        rw [hiff] at hab hbc ⊢
        omega⟩
      exact List.sorted_insertionSort r docs
    have hne : (docs.insertionSort r).Pairwise (fun a b => key a.content ≠ key b.content) :=
      (hperm.pairwise_iff fun h => h.symm).mpr hkeys
    exact (hsort.and hne).imp fun h => lt_of_le_of_ne ((hiff _ _).mp h.1) h.2
  · exact hperm

/-- Witness for C3: three documents with distinct lengths, sorted by
the comparator-sort strategy under the length oracle. -/
theorem sorting_total_order_witness :
    (sortingMethod (pairwise_decision oracleLen "q") docsW).Pairwise
      (fun a b => String.length a.content < String.length b.content)
    ∧ List.Perm (sortingMethod (pairwise_decision oracleLen "q") docsW) docsW :=
  sorting_total_order oracleLen "q" String.length docsW (oracleLen_dec "q") (by decide)

/-! ### Allpair output order: descending, stable, deterministic (C5) -/

/-- Three documents containing a score tie under the length oracle. -/
def docsTie : List Doc := [⟨"0", "aa", 0⟩, ⟨"1", "b", 0⟩, ⟨"2", "c", 0⟩]

/-- C5: the allpair output is ordered by score descending; documents
with equal scores keep their relative order from the scored sequence
(which is positionally identical to the input); and identical
comparator answers produce identical output. -/
theorem allpair_sorted_stable_deterministic (dec : String → String → Int) (docs : List Doc) :
    (allpairMethod dec docs).Pairwise (fun a b => b.score ≤ a.score)
    ∧ (∀ a b : Doc, List.Sublist [a, b] (allpairScored dec docs) → a.score = b.score →
        List.Sublist [a, b] (allpairMethod dec docs))
    ∧ (∀ dec' : String → String → Int, (∀ x y, dec x y = dec' x y) →
        allpairMethod dec docs = allpairMethod dec' docs) := by
  refine ⟨?_, ?_, ?_⟩
  · rw [allpairMethod]
    haveI : IsTotal Doc (fun a b => b.score ≤ a.score) := ⟨fun a b => le_total _ _⟩
    haveI : IsTrans Doc (fun a b => b.score ≤ a.score) :=
      ⟨fun a b c h1 h2 => le_trans h2 h1⟩
    exact List.sorted_insertionSort _ _
  · intro a b hsub heq
    rw [allpairMethod]
    exact List.pair_sublist_insertionSort (le_of_eq heq.symm) hsub
  · intro dec' hext
    have : dec = dec' := funext fun x => funext fun y => hext x y
    rw [this]

/-- Witness for C5: under the length oracle, the two tied documents
(`"b"` and `"c"`, each scoring `3/2`) stay in input order in the
output, and the run is reproducible. -/
theorem allpair_sorted_stable_deterministic_witness :
    List.Sublist [⟨"1", "b", 3/2⟩, ⟨"2", "c", 3/2⟩]
      (allpairMethod (pairwise_decision oracleLen "q") docsTie)
    ∧ allpairMethod (pairwise_decision oracleLen "q") docsTie
        = allpairMethod (pairwise_decision oracleLen "q") docsTie :=
  ⟨(allpair_sorted_stable_deterministic (pairwise_decision oracleLen "q") docsTie).2.1
      ⟨"1", "b", 3/2⟩ ⟨"2", "c", 3/2⟩ (by with_unfolding_all decide)
      (by with_unfolding_all decide),
   (allpair_sorted_stable_deterministic (pairwise_decision oracleLen "q") docsTie).2.2
      (pairwise_decision oracleLen "q") (fun x y => rfl)⟩

/-! ### The all-tie scenario (C9) -/

/-- `countP` distributes over `flatMap`. -/
theorem countP_flatMap {α β : Type} (p : β → Bool) (f : α → List β) :
    ∀ l : List α, (l.flatMap f).countP p = (l.map fun a => (f a).countP p).sum := by
  intro l
  induction l with
  | nil => rfl
  | cons a t ih => simp [List.countP_append, ih]

/-- Occurrences of a fixed value in a unit-step `range'`. -/
theorem countP_eq_k_range' (k : ℕ) : ∀ (len s : ℕ),
    ((List.range' s len).countP fun j => j = k) = if s ≤ k ∧ k < s + len then 1 else 0 := by
  intro len
  induction len with
  | zero =>
    intro s
    rw [show List.range' s 0 = [] from rfl, List.countP_nil, if_neg (by omega)]
  | succ m ih =>
    intro s
    rw [List.range'_succ, List.countP_cons, ih (s + 1)]
    simp only [decide_eq_true_eq]
    split_ifs <;> omega

/-- Sum of the indicator of `i < k` over `range n`. -/
theorem sum_indicator_lt (k : ℕ) : ∀ n, k ≤ n →
    (∑ i ∈ Finset.range n, if i < k then 1 else 0) = k := by
  intro n
  induction n with
  | zero => intro h; simp; omega
  | succ m ih =>
    intro hk
    rw [Finset.sum_range_succ]
    by_cases h : k ≤ m
    · rw [ih h, if_neg (by omega)]
      omega
    · rw [if_pos (by omega)]
      have hall : (∑ i ∈ Finset.range m, if i < k then 1 else 0)
          = ∑ i ∈ Finset.range m, 1 :=
        Finset.sum_congr rfl fun i hi => by
          rw [if_pos (by simp at hi; omega)]
      rw [hall, Finset.sum_const, smul_eq_mul, mul_one, Finset.card_range]
      omega

/-- Every index below `n` appears in exactly `n − 1` of the allpair
index pairs. -/
theorem allpairPairs_touch_count (n k : ℕ) (hk : k < n) :
    (allpairPairs n).countP (fun p => p.1 = k || p.2 = k) = n - 1 := by
  rw [allpairPairs, countP_flatMap]
  have hinner : (List.range n).map
      (fun i => (((List.range' (i + 1) (n - (i + 1))).map fun j => (i, j)).countP
        fun p => p.1 = k || p.2 = k))
      = (List.range n).map fun i => if i = k then n - (k + 1) else if i < k then 1 else 0 := by
    apply List.map_congr_left
    intro i _
    rw [List.countP_map]
    by_cases hik : i = k
    · subst hik
      rw [if_pos rfl, List.countP_eq_length.mpr (by intro j hj; simp), List.length_range']
    · rw [if_neg hik]
      have hfun : ((fun p : ℕ × ℕ => (decide (p.1 = k) || decide (p.2 = k))) ∘ fun j => (i, j))
          = fun j => decide (j = k) := by
        funext j
        simp [hik]
      rw [hfun, countP_eq_k_range' k (n - (i + 1)) (i + 1)]
      split_ifs <;> omega
  rw [hinner, list_range_map_sum]
  have hsplit : ∀ i ∈ Finset.range n,
      (if i = k then n - (k + 1) else if i < k then 1 else 0)
        = (if i = k then n - (k + 1) else 0) + (if i < k then 1 else 0) := by
    intro i _
    split_ifs <;> omega
  rw [Finset.sum_congr rfl hsplit, Finset.sum_add_distrib,
    Finset.sum_ite_eq' (Finset.range n) k fun _ => n - (k + 1),
    if_pos (Finset.mem_range.mpr hk), sum_indicator_lt k n (le_of_lt hk)]
  omega

/-- Folding allpair updates preserves the list length. -/
theorem allpair_fold_length (dec : String → String → Int) :
    ∀ (P : List (ℕ × ℕ)) (s : List Doc),
      (P.foldl (allpairStep dec) s).length = s.length := by
  intro P
  induction P with
  | nil => intro s; rfl
  | cons p P ih => intro s; rw [List.foldl_cons, ih, allpairStep_length]

/-- With an all-tie comparator, each position gains half a point per
pair that touches it. -/
theorem tie_fold_score (dec : String → String → Int) (htie : ∀ a b, dec a b = 0) :
    ∀ (P : List (ℕ × ℕ)) (s : List Doc),
      (∀ p ∈ P, p.1 < s.length ∧ p.2 < s.length ∧ p.1 ≠ p.2) →
      ∀ k : ℕ, (P.foldl (allpairStep dec) s)[k]?.map Doc.score
        = s[k]?.map fun x => x.score + (P.countP fun p => p.1 = k || p.2 = k) * (1/2 : ℚ) := by
  intro P
  induction P with
  | nil =>
    intro s _ k
    rw [List.foldl_nil, List.countP_nil]
    cases s[k]? <;> simp
  | cons p P ih =>
    intro s hval k
    obtain ⟨h1, h2, hne⟩ := hval p (List.mem_cons_self p P)
    have e1 : s[p.1]? = some s[p.1] := List.getElem?_eq_getElem h1
    have e2 : s[p.2]? = some s[p.2] := List.getElem?_eq_getElem h2
    have hstep : allpairStep dec s p
        = (s.set p.1 { s[p.1] with score := (s[p.1]).score + 1/2 }).set p.2
            { s[p.2] with score := (s[p.2]).score + 1/2 } := by
      rw [allpairStep, e1, e2]
      simp only
      rw [if_neg (by rw [htie]; decide), if_neg (by rw [htie]; decide)]
    rw [List.foldl_cons,
      ih (allpairStep dec s p) (fun q hq => by
        rw [allpairStep_length]
        exact hval q (List.mem_cons_of_mem p hq)) k,
      hstep]
    simp only [List.countP_cons]
    by_cases hk1 : k = p.1
    · rw [hk1]
      rw [List.getElem?_set_ne (show p.2 ≠ p.1 by omega), List.getElem?_set_self h1, e1]
      have hcond : ((decide (p.1 = p.1)) || (decide (p.2 = p.1)) : Bool) = true := by
        simp
      rw [hcond, if_pos rfl]
      simp only [Option.map_some']
      congr 1
      push_cast
      ring
    · by_cases hk2 : k = p.2
      · rw [hk2]
        rw [List.getElem?_set_self (by simpa using h2), e2]
        have hcond : ((decide (p.1 = p.2)) || (decide (p.2 = p.2)) : Bool) = true := by
          simp
        rw [hcond, if_pos rfl]
        simp only [Option.map_some']
        congr 1
        push_cast
        ring
      · rw [List.getElem?_set_ne (show p.2 ≠ k by omega),
          List.getElem?_set_ne (show p.1 ≠ k by omega)]
        have hcond : ((decide (p.1 = k)) || (decide (p.2 = k)) : Bool) = false := by
          simp only [Bool.or_eq_false_iff, decide_eq_false_iff_not]
          omega
        rw [hcond, if_neg (by simp), Nat.add_zero]

/-- C9: with an always-Tie comparator, the allpair strategy assigns
every unit the score `(n − 1) × 0.5` and outputs the input order; the
sorting strategy returns the input unchanged; and the sliding strategy
performs no swap for any pass count. -/
theorem all_tie_behavior (oracle : Oracle) (q : String) (docs : List Doc)
    (htie : ∀ a b, pairwise_decision oracle q a b = 0) :
    (allpairMethod (pairwise_decision oracle q) docs).map dropScore = docs.map dropScore
    ∧ (∀ d ∈ allpairMethod (pairwise_decision oracle q) docs,
        d.score = ((docs.length - 1 : ℕ) : ℚ) * (1/2))
    ∧ sortingMethod (pairwise_decision oracle q) docs = docs
    ∧ ∀ top_k : ℤ, slidingMethod (pairwise_decision oracle q) top_k docs = docs := by
  have hvalid : ∀ p ∈ allpairPairs docs.length,
      p.1 < (initScores docs).length ∧ p.2 < (initScores docs).length ∧ p.1 ≠ p.2 := by
    intro p hp
    have hmem := (allpairPairs_mem docs.length p).mp hp
    have hlen : (initScores docs).length = docs.length := by simp [initScores]
    rw [hlen]
    omega
  have hscore : ∀ d ∈ allpairScored (pairwise_decision oracle q) docs,
      d.score = ((docs.length - 1 : ℕ) : ℚ) * (1/2) := by
    intro d hd
    obtain ⟨k, hk, hdk⟩ := List.mem_iff_getElem.mp hd
    have hklen : k < docs.length := by
      have := allpair_fold_length (pairwise_decision oracle q) (allpairPairs docs.length)
        (initScores docs)
      rw [allpairScored] at hk
      rw [this] at hk
      simpa [initScores] using hk
    have hts := tie_fold_score (pairwise_decision oracle q) htie
      (allpairPairs docs.length) (initScores docs) hvalid k
    rw [← allpairScored] at hts
    rw [List.getElem?_eq_getElem hk, hdk] at hts
    have hinit : (initScores docs)[k]? = some { docs[k] with score := 0 } := by
      rw [initScores, List.getElem?_map, List.getElem?_eq_getElem hklen]
      rfl
    rw [hinit, allpairPairs_touch_count docs.length k hklen] at hts
    simp only [Option.map_some'] at hts
    have := Option.some.inj hts
    rw [this]
    ring
  have hpairwise : (allpairScored (pairwise_decision oracle q) docs).Pairwise
      (fun a b => b.score ≤ a.score) :=
    List.pairwise_of_forall_mem_list fun a ha b hb => by
      rw [hscore a ha, hscore b hb]
  have hsorted_eq : allpairMethod (pairwise_decision oracle q) docs
      = allpairScored (pairwise_decision oracle q) docs := by
    rw [allpairMethod]
    exact List.Sorted.insertionSort_eq hpairwise
  refine ⟨?_, ?_, ?_, ?_⟩
  · rw [hsorted_eq, allpairScored,
      allpair_fold_dropScore (pairwise_decision oracle q) _ _ (fun p hp =>
        ((allpairPairs_mem docs.length p).mp hp).1.ne)]
    simp [initScores, dropScore, List.map_map, Function.comp_def]
  · intro d hd
    rw [hsorted_eq] at hd
    exact hscore d hd
  · rw [sortingMethod]
    apply List.Sorted.insertionSort_eq
    apply List.pairwise_of_forall_mem_list
    intro a _ b _
    show compare_docs (pairwise_decision oracle q) a b ≤ 0
    rw [compare_docs, htie]
    norm_num
  · intro top_k
    have hstep : ∀ (ds : List Doc) (i : ℕ), slideStep (pairwise_decision oracle q) ds i = ds := by
      intro ds i
      rw [slideStep]
      split
      · rw [if_neg (by rw [htie]; decide)]
      · rfl
    have hpass : ∀ ds, slidePass (pairwise_decision oracle q) ds = ds := fun ds =>
      foldl_const hstep _ ds
    have hiter : ∀ (m : ℕ) (ds : List Doc),
        (slidePass (pairwise_decision oracle q))^[m] ds = ds := by
      intro m
      induction m with
      | zero => intro ds; rfl
      | succ m ih =>
        intro ds
        rw [Function.iterate_succ_apply, hpass, ih]
    exact hiter _ _

/-- The unparsable oracle always yields Tie. -/
theorem oracleTie_dec (q a b : String) : pairwise_decision oracleTie q a b = 0 := rfl

/-- Witness for C9: three documents under the always-unparsable oracle:
identity order for all three strategies, and score `1 = 2 × 0.5` for a
member of the allpair output. -/
theorem all_tie_behavior_witness :
    (allpairMethod (pairwise_decision oracleTie "q") docsW).map dropScore
        = docsW.map dropScore
    ∧ (⟨"0", "ccc", 1⟩ : Doc).score = ((docsW.length - 1 : ℕ) : ℚ) * (1/2)
    ∧ sortingMethod (pairwise_decision oracleTie "q") docsW = docsW
    ∧ slidingMethod (pairwise_decision oracleTie "q") (-5) docsW = docsW :=
  ⟨(all_tie_behavior oracleTie "q" docsW (oracleTie_dec "q")).1,
   (all_tie_behavior oracleTie "q" docsW (oracleTie_dec "q")).2.1 ⟨"0", "ccc", 1⟩
     (by with_unfolding_all decide),
   (all_tie_behavior oracleTie "q" docsW (oracleTie_dec "q")).2.2.1,
   (all_tie_behavior oracleTie "q" docsW (oracleTie_dec "q")).2.2.2 (-5)⟩

end LlmSort
